import Mathlib

/-!
Verification development for `get_tweets.py` (hash_out).

The Python module ingests tweets from the Twitter streaming / search API,
parses them into `ParsedTweet` objects (metadata flattening, user-mention
redaction, hashtag extraction, coordinate extraction), filters and bounds
the stream (`Twitterizer.get_tweets` / `tweet_iterator`), and accumulates
Django fixtures plus a pairwise "competitors" set (`Twitterator`).

This file shallowly embeds the relevant functions.  JSON-like Python values
are modelled by the mutual inductive family `MVal` / `MArr` / `MDict`;
Python exceptions are modelled by `Except PyErr`; the `Twitterator`'s
mutable fixture dictionaries are modelled by an explicit state record
(`TwState`) holding one heap cell per fixture template, exactly as the
Python object holds one shared dict per model.
-/

namespace HashOut

/-- Python exceptions that the embedded code can raise. -/
inductive PyErr where
  | keyErr : String → PyErr
  | typeErr : PyErr
  | indexErr : PyErr
  | attrErr : String → PyErr
  deriving DecidableEq, Repr

mutual
/-- A JSON-like Python value as found in Twitter metadata:
strings, numbers, `None`, lists, and (nested) dicts.
Numbers are modelled as rationals; the code never computes on them. -/
inductive MVal where
  | str : String → MVal
  | num : Rat → MVal
  | none : MVal
  | arr : MArr → MVal
  | dict : MDict → MVal

/-- A Python list of `MVal`s (first-order, to keep the family mutual). -/
inductive MArr where
  | nil : MArr
  | cons : MVal → MArr → MArr

/-- A Python dict with string keys (association list; keys are unique in
actual Python dicts, later occurrences are ignored by lookup). -/
inductive MDict where
  | nil : MDict
  | cons : String → MVal → MDict → MDict
end

namespace MArr

/-- Length of a Python list. -/
def length : MArr → Nat
  | .nil => 0
  | .cons _ t => 1 + t.length

/-- Convert to a Lean list. -/
def toList : MArr → List MVal
  | .nil => []
  | .cons h t => h :: t.toList

end MArr

namespace MDict

/-- Dict lookup: `d[k]` without the exception (`none` = key absent). -/
def lookup (d : MDict) (k : String) : Option MVal :=
  match d with
  | .nil => Option.none
  | .cons k' v rest => if k' = k then some v else rest.lookup k

/-- Membership test `k in d.keys()`. -/
def hasKey (d : MDict) (k : String) : Bool :=
  (d.lookup k).isSome

/-- The dict built by `for k in d.keys(): if k != k0: out[k] = d[k]`
(copy with one key removed). -/
def removeKey (d : MDict) (k0 : String) : MDict :=
  match d with
  | .nil => .nil
  | .cons k v rest => if k = k0 then rest.removeKey k0 else .cons k v (rest.removeKey k0)

/-- Is the dict non-empty (Python truthiness of a dict)? -/
def isNonempty (d : MDict) : Bool :=
  match d with
  | .nil => false
  | .cons _ _ _ => true

end MDict

/-- Python truthiness of an `MVal` (`if v:`). -/
def pyTruthy (v : MVal) : Bool :=
  match v with
  | .str s => s ≠ ""
  | .num q => q ≠ 0
  | .none => false
  | .arr .nil => false
  | .arr (.cons _ _) => true
  | .dict d => d.isNonempty

/-- Flattened metadata: the dict `d` built up by `__get_meta_key__`,
modelled as an association list with Python-dict update semantics. -/
abbrev Flat := List (String × MVal)

/-- Assignment `d[k] = v` on a Python dict: replace the binding if the key exists,
otherwise append it. -/
def setKey (d : Flat) (k : String) (v : MVal) : Flat :=
  match d with
  | [] => [(k, v)]
  | (k', v') :: rest => if k' = k then (k, v) :: rest else (k', v') :: setKey rest k v

/-- Update `d.update(d2)`: set every binding of `d2` in `d`, in order. -/
def dUpdate (d : Flat) (d2 : Flat) : Flat :=
  d2.foldl (fun acc kv => setKey acc kv.1 kv.2) d

/-- Lookup in a flattened dict (`d.get(k)` semantics, `none` = absent). -/
def flatLookup (d : Flat) (k : String) : Option MVal :=
  match d with
  | [] => Option.none
  | (k', v) :: rest => if k' = k then some v else flatLookup rest k

/-- Model of `ParsedTweet.__get_meta_key__`, accumulator form.  The Python code is

    d = {}
    for k in metadata.keys():
        d[k] = metadata[k]
        if isinstance(metadata[k], dict):
            d.update(self.__get_meta_key__(metadata[k]))
    return d

`flattenGo m acc` is the value of `d` after the loop has processed the
entries of `m`, starting from accumulator `acc`. -/
def flattenGo : MDict → Flat → Flat
  | .nil, acc => acc
  | .cons k v rest, acc =>
    let acc1 := setKey acc k v
    let acc2 := match v with
      | .dict sub => dUpdate acc1 (flattenGo sub [])
      | _ => acc1
    flattenGo rest acc2

/-- Model of `ParsedTweet.__get_meta_key__(metadata)`. -/
def flattenDict (m : MDict) : Flat :=
  flattenGo m []

/-- The keys of a flattened dict. -/
def flatKeys (d : Flat) : List String :=
  d.map Prod.fst

mutual
/-- Keys appearing at any depth of a value, descending through dicts only
(a dict nested inside a list is *not* traversed — this mirrors the
`isinstance(metadata[k], dict)` test of the source). -/
def keysViaDictsV : MVal → List String
  | .dict d => keysViaDictsD d
  | _ => []

/-- Keys of a dict and, recursively, of its dict-valued entries. -/
def keysViaDictsD : MDict → List String
  | .nil => []
  | .cons k v rest => k :: (keysViaDictsV v ++ keysViaDictsD rest)
end

mutual
/-- Modelled from the spec: "every key appearing at any depth of the
input" — keys at any depth, descending through dicts *and* lists. -/
def keysAtAnyDepthV : MVal → List String
  | .dict d => keysAtAnyDepthD d
  | .arr a => keysAtAnyDepthA a
  | _ => []

/-- Keys at any depth inside the elements of a list. -/
def keysAtAnyDepthA : MArr → List String
  | .nil => []
  | .cons v rest => keysAtAnyDepthV v ++ keysAtAnyDepthA rest

/-- Keys at any depth of a dict: its own keys plus, recursively, those of
every value. -/
def keysAtAnyDepthD : MDict → List String
  | .nil => []
  | .cons k v rest => k :: (keysAtAnyDepthV v ++ keysAtAnyDepthD rest)
end

/-- A word character of the Python 2 byte-string regexes: `[\w\d_]` with
`\w = [a-zA-Z0-9_]`, i.e. ASCII letters, digits and underscore. -/
def isWordChar (c : Char) : Bool :=
  c.isAlpha || c.isDigit || c = '_'

/-- The replacement token of the redaction: `'@xxxxxxxx'`. -/
def sentinel : List Char :=
  '@' :: List.replicate 8 'x'

/-- Model of `re.sub(r'@[\w\d_]+', '@xxxxxxxx', text)`: replace every (leftmost,
greedy, non-overlapping) match of `@` followed by one or more word
characters with the sentinel.  A match starts at a `'@'` whose next
character is a word character and greedily consumes the whole word run. -/
def munge : List Char → List Char
  | [] => []
  | c :: cs =>
    if c = '@' ∧ cs ≠ [] ∧ isWordChar (cs.headD ' ') then
      sentinel ++ munge (cs.dropWhile isWordChar)
    else c :: munge cs
  termination_by l => l.length
  decreasing_by
    · have := (List.dropWhile_sublist (l := cs) isWordChar).length_le
      simp
      omega
    · simp

/-- Redaction on strings (`munged_text = re.sub(munge_p, '@xxxxxxxx', text)`). -/
def mungeStr (s : String) : String :=
  (munge s.data).asString

/-- Model of `re.findall(r'#[\w_\d]+', text)`: every maximal run of word characters
directly preceded by `#` (with at least one word character), in order. -/
def findTags : List Char → List String
  | [] => []
  | c :: cs =>
    if c = '#' ∧ cs ≠ [] ∧ isWordChar (cs.headD ' ') then
      ('#' :: cs.takeWhile isWordChar).asString :: findTags (cs.dropWhile isWordChar)
    else findTags cs
  termination_by l => l.length
  decreasing_by
    · have := (List.dropWhile_sublist (l := cs) isWordChar).length_le
      simp
      omega
    · simp

/-- Worker for `re.split(r'\s+', s)`: split on maximal whitespace runs
(`cur` is the current token, reversed).  Leading or trailing runs yield
empty fields, as `re.split` does. -/
def splitWSGo : List Char → List Char → List String
  | [], cur => [cur.reverse.asString]
  | c :: cs, cur =>
    if c.isWhitespace then
      cur.reverse.asString :: splitWSGo (cs.dropWhile Char.isWhitespace) []
    else splitWSGo cs (c :: cur)
  termination_by l _ => l.length
  decreasing_by
    · have := (List.dropWhile_sublist (l := cs) Char.isWhitespace).length_le
      simp
      omega
    · simp

/-- Model of `re.split(r'\s+', s)`: the default tokenizer `ParsedTweet.__split__`. -/
def splitWS (s : String) : List String :=
  splitWSGo s.data []

/-- Subscript `d[k]` with the `KeyError` raised on a missing key. -/
def getItem (d : MDict) (k : String) : Except PyErr MVal :=
  match d.lookup k with
  | some v => .ok v
  | Option.none => .error (.keyErr k)

/-- Python subscripting `v[k]` with a string key on an arbitrary value:
a dict does the lookup, everything else raises `TypeError`
(string subscripts need integer indices in Python 2). -/
def getItemV (v : MVal) (k : String) : Except PyErr MVal :=
  match v with
  | .dict d => getItem d k
  | _ => .error .typeErr

/-- Model of `try: ...  except KeyError: <default>` around an embedded computation:
a `KeyError` is caught and replaced by the default, every other outcome
passes through. -/
def tryKeyErr {α : Type} (x : Except PyErr α) (dflt : α) : Except PyErr α :=
  match x with
  | .error (.keyErr _) => .ok dflt
  | other => other

/-- The list comprehension `[ht['text'] for ht in hts]`.  Each element must
be a dict carrying `'text'` (`KeyError` if missing, `TypeError` if not a
dict); tag texts are modelled as strings (tweets carry string tag texts). -/
def htTexts : MArr → Except PyErr (List String)
  | .nil => pure []
  | .cons v rest => do
    let t ← getItemV v "text"
    match t with
    | .str s => do
      let l ← htTexts rest
      pure (s :: l)
    | _ => .error .typeErr

/-- Model of `hts = metadata['entities']['hashtags']; if hts: [ht['text'] for ht in hts]`
(the body of the `try` in `ParsedTweet.__init__`; `none` = `self.hashtags`
left as `None`). -/
def extractHashtags (m : MDict) : Except PyErr (Option (List String)) := do
  let ents ← getItem m "entities"
  let hts ← getItemV ents "hashtags"
  if pyTruthy hts then
    match hts with
    | .arr a => do
      let l ← htTexts a
      pure (some l)
    | _ => .error .typeErr
  else pure Option.none

/-- Model of `ParsedTweet.get_meta(value)` for a non-empty `value`:
`None` unless the (truthy) flattened `meta_key` dict exists, else
`meta_key[value]` with the `KeyError` caught and turned into `None`. -/
def getMetaOf (mk : Option Flat) (k : String) : Option MVal :=
  match mk with
  | some f => if f.isEmpty then Option.none else flatLookup f k
  | Option.none => Option.none

/-- The parsed representation of one tweet (`ParsedTweet`'s attributes). -/
structure PT where
  text : String
  munged_text : String
  tokenized_text : List String
  metadata : Option MDict
  meta_key : Option Flat
  hashtags : List String
  uid : MVal

/-- Model of `ParsedTweet.__init__(text, metadata, tokenize)`.  The byte-level
`encode('utf8','replace').decode('ascii','replace')` round-trip is the
identity on the ASCII texts modelled here. -/
def pInit (text : String) (metadata : Option MDict)
    (tokenize : Option (String → List String)) : Except PyErr PT := do
  -- self.tokenize = tokenize or self.__split__
  let tok := tokenize.getD splitWS
  -- self.text = text or metadata.get('text', '')  (None.get → AttributeError;
  -- a non-string recovered text would fail at .encode)
  let text1 ←
    if text ≠ "" then pure text
    else match metadata with
      | Option.none => Except.error (.attrErr "get")
      | some m =>
        match m.lookup "text" with
        | some (.str s) => pure s
        | some _ => Except.error (.attrErr "encode")
        | Option.none => pure ""
  -- self.tokenized_text = self.tokenize(text)   (the *parameter* text)
  let tokenized := tok text
  -- self.munged_text = re.sub(self.munge_p, '@xxxxxxxx', self.text)
  let munged := mungeStr text1
  -- self.hashtags = None; if self.metadata: self.meta_key = ...; try: ...
  let meta_key : Option Flat :=
    match metadata with
    | some m => if m.isNonempty then some (flattenDict m) else Option.none
    | Option.none => Option.none
  let hashtags0 ←
    match metadata with
    | some m => if m.isNonempty then tryKeyErr (extractHashtags m) Option.none
                else pure (Option.none : Option (List String))
    | Option.none => pure (Option.none : Option (List String))
  -- self.hashtags = self.hashtags or re.findall(r'#[\w_\d]+', text)
  let hashtags :=
    match hashtags0 with
    | some (h :: t) => h :: t
    | _ => findTags text.data
  -- self.uid = self.get_meta('user')['id']   (None['id'] → TypeError;
  -- a missing 'id' → KeyError, uncaught)
  let uid ←
    match getMetaOf meta_key "user" with
    | Option.none => Except.error PyErr.typeErr
    | some v => getItemV v "id"
  pure { text := text1, munged_text := munged, tokenized_text := tokenized,
         metadata := metadata, meta_key := meta_key, hashtags := hashtags,
         uid := uid }

/-- Model of `ParsedTweet.get_meta(k)` on a constructed object. -/
def PT.get_meta (pt : PT) (k : String) : Option MVal :=
  getMetaOf pt.meta_key k

/-- The `while isinstance(coordinates[0], list): coordinates = coordinates[0]`
loop of `get_coordinates`, entered with `coordinates` bound to a list.
`coordinates[0]` on an empty list raises `IndexError`; when the head is not
a list the loop's `else` returns the current list. -/
def unwrapCoords : MArr → Except PyErr MVal
  | .nil => .error .indexErr
  | .cons (MVal.arr inner) _ => unwrapCoords inner
  | .cons v rest => .ok (.arr (.cons v rest))

/-- Model of `ParsedTweet.get_coordinates()`:
nothing (Python `None`) when the field is absent or falsy, else the
unwrapped innermost list.  A truthy non-list value is subscripted by `[0]`:
a string yields itself back (a 1-character string is not a list), a dict
raises `KeyError: 0`, a number `TypeError`. -/
def PT.get_coordinates (pt : PT) : Except PyErr (Option MVal) :=
  match pt.get_meta "coordinates" with
  | some v =>
    if pyTruthy v then
      match v with
      | .arr a => (unwrapCoords a).map some
      | .str s => .ok (some (.str s))
      | .dict _ => .error (.keyErr "0")
      | _ => .error .typeErr
    else .ok Option.none
  | Option.none => .ok Option.none

/-- Comparison `v == lang` for a metadata value against a Python string: equal strings
compare equal, any other value compares unequal. -/
def pyEqStr (v : MVal) (s : String) : Bool :=
  match v with
  | .str t => t = s
  | _ => false

/-- Construction `ParsedTweet(tv, md, tok)` where `tv` is the raw `tweet["text"]` value:
tweet texts are strings (a non-string would fail at `.encode`). -/
def mkParsed (tv : MVal) (md : Option MDict)
    (tok : Option (String → List String)) : Except PyErr PT :=
  match tv with
  | .str s => pInit s md tok
  | _ => .error (.attrErr "encode")

/-- The metadata dict built by
`for k in tweet.keys(): if k != "text": metadata[k] = tweet[k]`. -/
def mdOf (raw : MDict) (meta : Bool) : Option MDict :=
  if meta then some (raw.removeKey "text") else Option.none

/-- Model of `Twitterizer.parse_tweet(raw_tweet, hash_only, meta, lang, lang_none,
tokenize)`.  `ok none` means the tweet was rejected (the Python function
falls off the end and returns `None`).  Note the acceptance condition
`(not (lang_none == ('lang' in raw_tweet.keys()))) and raw_tweet["lang"] == lang`:
when the first conjunct holds, `raw_tweet["lang"]` is evaluated and raises
`KeyError` if the field is absent (only possible when `lang_none` is true). -/
def parseTweetTz (raw : MDict) (hash_only meta : Bool) (lang : String)
    (lang_none : Bool) (tokenize : Option (String → List String)) :
    Except PyErr (Option PT) := do
  if raw.hasKey "text" then
    if lang_none ≠ raw.hasKey "lang" then do
      let lv ← getItem raw "lang"
      if pyEqStr lv lang then
        if hash_only then do
          let ents ← getItem raw "entities"
          let hts ← getItemV ents "hashtags"
          if pyTruthy hts then do
            let tv ← getItem raw "text"
            let pt ← mkParsed tv (mdOf raw meta) tokenize
            pure (some pt)
          else pure Option.none
        else do
          let tv ← getItem raw "text"
          let pt ← mkParsed tv (mdOf raw meta) tokenize
          pure (some pt)
      else pure Option.none
    else pure Option.none
  else pure Option.none

/-- One pulled item of `Twitterizer.get_tweets`: the body inlines the same
acceptance logic as `parse_tweet`, except that its non-`hash_only` branch
constructs `ParsedTweet(tweet["text"], metadata)` without the tokenizer. -/
def getTweetsStep (raw : MDict) (hash_only meta : Bool) (lang : String)
    (lang_none : Bool) (tokenize : Option (String → List String)) :
    Except PyErr (Option PT) := do
  if raw.hasKey "text" then
    if lang_none ≠ raw.hasKey "lang" then do
      let lv ← getItem raw "lang"
      if pyEqStr lv lang then
        if hash_only then do
          let ents ← getItem raw "entities"
          let hts ← getItemV ents "hashtags"
          if pyTruthy hts then do
            let tv ← getItem raw "text"
            let pt ← mkParsed tv (mdOf raw meta) tokenize
            pure (some pt)
          else pure Option.none
        else do
          let tv ← getItem raw "text"
          let pt ← mkParsed tv (mdOf raw meta) Option.none
          pure (some pt)
      else pure Option.none
    else pure Option.none
  else pure Option.none

/-- The `while i < limit` pull loop of `Twitterizer.get_tweets`: the feed
(`sample`) is a list of raw tweets, its end models `StopIteration`
(`break`, not an error); accepted tweets are appended and count toward
`i`, rejected ones are discarded. -/
def getTweetsGo (hash_only meta : Bool) (lang : String) (lang_none : Bool)
    (tokenize : Option (String → List String)) :
    List MDict → Nat → Nat → Except PyErr (List PT)
  | feed, i, limit =>
    if i < limit then
      match feed with
      | [] => .ok []
      | t :: ts => do
        match ← getTweetsStep t hash_only meta lang lang_none tokenize with
        | some pt => do
          let rest ← getTweetsGo hash_only meta lang lang_none tokenize ts (i + 1) limit
          pure (pt :: rest)
        | Option.none => getTweetsGo hash_only meta lang lang_none tokenize ts i limit
    else .ok []
  termination_by feed _ _ => feed.length

/-- Model of `Twitterizer.get_tweets(sample, hash_only, limit, lang, lang_none, meta,
tokenize, verbose)` with the feed made explicit (`i = 0` at entry). -/
def getTweets (feed : List MDict) (hash_only : Bool) (limit : Nat)
    (lang : String) (lang_none : Bool) (meta : Bool)
    (tokenize : Option (String → List String)) : Except PyErr (List PT) :=
  getTweetsGo hash_only meta lang lang_none tokenize feed 0 limit

/-- The `while i <= limit` loop of `Twitterizer.tweet_iterator`: each pulled
item goes through `parse_tweet`; a non-`None` result is yielded and counts
toward `i`.  The yielded tweets are collected into a list. -/
def tweetIteratorGo (hash_only meta : Bool) (lang : String) (lang_none : Bool)
    (tokenize : Option (String → List String)) :
    List MDict → Nat → Nat → Except PyErr (List PT)
  | feed, i, limit =>
    if i ≤ limit then
      match feed with
      | [] => .ok []
      | t :: ts => do
        match ← parseTweetTz t hash_only meta lang lang_none tokenize with
        | some pt => do
          let rest ← tweetIteratorGo hash_only meta lang lang_none tokenize ts (i + 1) limit
          pure (pt :: rest)
        | Option.none => tweetIteratorGo hash_only meta lang lang_none tokenize ts i limit
    else .ok []
  termination_by feed _ _ => feed.length

/-- Model of `Twitterizer.tweet_iterator(sample, limit, ...)` (`i = 0` at entry). -/
def tweetIterator (feed : List MDict) (limit : Nat) (hash_only meta : Bool)
    (lang : String) (lang_none : Bool)
    (tokenize : Option (String → List String)) : Except PyErr (List PT) :=
  tweetIteratorGo hash_only meta lang lang_none tokenize feed 0 limit

/-- The number of tweets produced by a run (0 when the run raised). -/
def lenOk (r : Except PyErr (List PT)) : Nat :=
  match r with
  | .ok l => l.length
  | .error _ => 0

/-- The contents of the shared `self.tweet_fixture` dict (`pk` and the
`fields` entries).  `uid`, `time_zone`, `lat`, `lon` hold metadata values
(`MVal.none` models Python `None`). -/
structure TweetFix where
  pk : Nat
  text : String
  uid : MVal
  time_zone : MVal
  lat : MVal
  lon : MVal

/-- The contents of the shared `self.hash_fixture` dict. -/
structure HashFix where
  pk : Nat
  text : String
  tweet : Nat

/-- The contents of the shared `self.competitor_fixture` dict.  The Python
template initialises `tag1`/`tag2` to the integer `0`; they are modelled as
strings (initially `""`) since every write stores a hashtag string. -/
structure CompFix where
  pk : Nat
  tag1 : String
  tag2 : String
  votes : Nat

/-- A reference stored in `self.fixtures`: each append stores a reference
to one of the three shared fixture dicts, never a copy. -/
inductive FixRef where
  | tweetRef
  | hashRef
  | compRef
  deriving DecidableEq, Repr

/-- A value snapshot of one fixture dict, used for the emission history. -/
inductive FixSnapshot where
  | tw : TweetFix → FixSnapshot
  | ha : HashFix → FixSnapshot
  | co : CompFix → FixSnapshot

/-- The mutable state of a `Twitterator` object.  `fixtures` holds
references into the three heap cells `tweet_fixture` / `hash_fixture` /
`competitor_fixture` (the shared template dicts created in `__init__`);
`trace` is a ghost history recording the value a cell held at the moment
it was appended, so that emission-time values can be compared with the
values observed when the list is finally read. -/
structure TwState where
  fixtures : List FixRef
  competitors : List String
  tweet_i : Nat
  hash_i : Nat
  competitors_i : Nat
  tweet_fixture : TweetFix
  hash_fixture : HashFix
  competitor_fixture : CompFix
  trace : List FixSnapshot

/-- The state after `Twitterator.__init__`, restricted to the fixture
pipeline: counters start at 1 and the templates hold their initial field
values.  (`__init__` later rebinds `self.competitors` to the Django
queryset `Competitors.objects.all()`, which would make the subsequent
`.append`/`.pop` calls of the fixture pipeline raise `AttributeError`;
the pipeline methods are modelled over the list initialised first, which
is the structure they manifestly operate on.) -/
def initState : TwState :=
  { fixtures := [], competitors := [],
    tweet_i := 1, hash_i := 1, competitors_i := 1,
    tweet_fixture := { pk := 0, text := "", uid := .str "", time_zone := .str "",
                       lat := .none, lon := .none },
    hash_fixture := { pk := 0, text := "", tweet := 0 },
    competitor_fixture := { pk := 0, tag1 := "", tag2 := "", votes := 0 },
    trace := [] }

/-- Read one `fixtures` entry at the current state: dereferencing the
stored reference yields the shared cell's *current* contents. -/
def derefFix (st : TwState) : FixRef → FixSnapshot
  | .tweetRef => .tw st.tweet_fixture
  | .hashRef => .ha st.hash_fixture
  | .compRef => .co st.competitor_fixture

/-- Model of `Twitterator.parse_hash(tag)`: mutate the shared hash fixture's fields,
append the (shared) fixture to `self.fixtures`, append the tag to
`self.competitors`, bump `hash_i`. -/
def parse_hash (st : TwState) (tag : String) : TwState :=
  let hf : HashFix := { pk := st.hash_i, text := tag, tweet := st.tweet_i }
  { st with hash_fixture := hf,
            fixtures := st.fixtures ++ [FixRef.hashRef],
            trace := st.trace ++ [FixSnapshot.ha hf],
            competitors := st.competitors ++ [tag],
            hash_i := st.hash_i + 1 }

/-- Subscripting `tweet.get_coordinates()[idx]`: `None` is not
subscriptable (`TypeError`, caught by the caller's handler); a list
yields the element or `IndexError`; a Python 2 string yields a 1-character
string; a dict raises `KeyError` on the integer key; a number `TypeError`. -/
def pyIndex (v : Option MVal) (idx : Nat) : Except PyErr MVal :=
  match v with
  | Option.none => .error .typeErr
  | some (.arr a) =>
    match a.toList.get? idx with
    | some x => .ok x
    | Option.none => .error .indexErr
  | some (.str s) =>
    match s.data.get? idx with
    | some c => .ok (.str (String.mk [c]))
    | Option.none => .error .indexErr
  | some (.dict _) => .error (.keyErr (toString idx))
  | some (.num _) => .error .typeErr
  | some .none => .error .typeErr

/-- Value of `tweet.get_meta(k)` as a fixture field value (`None` when absent). -/
def optToM (o : Option MVal) : MVal :=
  o.getD .none

/-- Model of `Twitterator.parse_tweet(tweet)`: mutate the shared tweet fixture
(`pk`, `text`, `uid`, `time_zone`; `lat`/`lon` only when the coordinate
subscripts succeed — `except TypeError: pass` keeps the *previous* values
otherwise, and any non-`TypeError` exception propagates), append the shared
fixture, run `parse_hash` on every hashtag, and only then bump `tweet_i`. -/
def parse_tweet (st : TwState) (tweet : PT) : Except PyErr TwState := do
  let tf0 := st.tweet_fixture
  let tf1 : TweetFix :=
    { tf0 with pk := st.tweet_i,
               text := tweet.munged_text,
               uid := optToM (tweet.get_meta "id"),
               time_zone := optToM (tweet.get_meta "time_zone") }
  let latlon : Except PyErr (MVal × MVal) := do
    let co1 ← tweet.get_coordinates
    let la ← pyIndex co1 1
    let co2 ← tweet.get_coordinates
    let lo ← pyIndex co2 0
    pure (la, lo)
  let tf2 ←
    match latlon with
    | .ok (la, lo) => pure { tf1 with lat := la, lon := lo }
    | .error .typeErr => pure tf1
    | .error e => Except.error e
  let st1 := { st with tweet_fixture := tf2,
                       fixtures := st.fixtures ++ [FixRef.tweetRef],
                       trace := st.trace ++ [FixSnapshot.tw tf2] }
  let st2 := tweet.hashtags.foldl parse_hash st1
  pure { st2 with tweet_i := st2.tweet_i + 1 }

/-- Model of `Twitterator.parse_competitors(competitor1, competitor2)`: mutate the
shared competitor fixture, append it, bump `competitors_i`. -/
def parse_competitors (st : TwState) (c1 c2 : String) : TwState :=
  let cf : CompFix := { pk := st.competitors_i, tag1 := c1, tag2 := c2,
                        votes := st.competitor_fixture.votes }
  { st with competitor_fixture := cf,
            fixtures := st.fixtures ++ [FixRef.compRef],
            trace := st.trace ++ [FixSnapshot.co cf],
            competitors_i := st.competitors_i + 1 }

/-- The `while self.competitors:` loop of `serialize_competitors`.
`.pop()` removes the *last* element, so the loop is recursion over the
reversed list: `c1 :: revRest` means `c1` was popped and
`revRest.reverse` is the list the inner `for` then iterates (in its
original order), emitting a pair for every entry with a different text. -/
def serCompsGo : List String → TwState → TwState
  | [], st => st
  | c1 :: revRest, st =>
    let remaining := revRest.reverse
    let st1 := remaining.foldl
      (fun s c => if c1 ≠ c then parse_competitors s c1 c else s)
      { st with competitors := remaining }
    serCompsGo revRest st1

/-- Model of `Twitterator.serialize_competitors()`. -/
def serialize_competitors (st : TwState) : TwState :=
  serCompsGo st.competitors.reverse st

/-- The pairs `(competitor1, competitor)` emitted by the
`serialize_competitors` loop, as a pure function of the popped-order
(i.e. reversed) competitors list. -/
def purePairs : List String → List (String × String)
  | [] => []
  | c1 :: revRest =>
    revRest.reverse.filterMap
      (fun c => if c1 ≠ c then some (c1, c) else Option.none)
      ++ purePairs revRest

/-- The competitor pairs recorded in an emission history. -/
def compPairs (tr : List FixSnapshot) : List (String × String) :=
  tr.filterMap (fun s => match s with | .co c => some (c.tag1, c.tag2) | _ => Option.none)

/-- The hashtag texts recorded in an emission history. -/
def hashTextsOf (tr : List FixSnapshot) : List String :=
  tr.filterMap (fun s => match s with | .ha h => some h.text | _ => Option.none)

/-- The number of tweet fixtures recorded in an emission history. -/
def tweetCount (tr : List FixSnapshot) : Nat :=
  (tr.filterMap (fun s => match s with | .tw t => some t.pk | _ => Option.none)).length

/-- The retry loop of `Twitterator.tweet_to_db` / `hashtag_to_db`: try to
save with id `i`; on an `IntegrityError` (the backend already holds `i`)
bump the counter and retry; return the id finally committed.  The loop
terminates because the counter strictly approaches one past the largest
taken id. -/
def saveWithRetry (taken : List Nat) (i : Nat) : Nat :=
  if h : i ∈ taken then saveWithRetry taken (i + 1) else i
  termination_by (taken.foldr max 0 + 1) - i
  decreasing_by
    have hle : ∀ (tk : List Nat), i ∈ tk → i ≤ tk.foldr max 0 := by
      intro tk hm
      induction tk with
      | nil => simp at hm
      | cons a t ih =>
        rcases List.mem_cons.mp hm with rfl | hm2
        · exact le_max_left _ _
        · exact le_trans (ih hm2) (le_max_right _ _)
    have := hle taken h
    omega

/-- The ids attempted (in order) by one `saveWithRetry` run: every
conflicted id followed by its successor, ending with the committed id. -/
def saveAttempts (taken : List Nat) (i : Nat) : List Nat :=
  if h : i ∈ taken then i :: saveAttempts taken (i + 1) else [i]
  termination_by (taken.foldr max 0 + 1) - i
  decreasing_by
    have hle : ∀ (tk : List Nat), i ∈ tk → i ≤ tk.foldr max 0 := by
      intro tk hm
      induction tk with
      | nil => simp at hm
      | cons a t ih =>
        rcases List.mem_cons.mp hm with rfl | hm2
        · exact le_max_left _ _
        · exact le_trans (ih hm2) (le_max_right _ _)
    have := hle taken h
    omega

/-- A run of `n` logical writes of one record type (the pattern of
`tweets_to_db`): each write commits at the first free id from the current
counter, the committed id joins the backend's taken set, and the counter
moves one past it (`self.tweet_i += 1` after success).  Returns the
committed ids in order. -/
def runWrites (taken : List Nat) (i : Nat) : Nat → List Nat
  | 0 => []
  | n + 1 =>
    let c := saveWithRetry taken i
    c :: runWrites (c :: taken) (c + 1) n

/-- All ids attempted across a run of `n` writes, in order. -/
def runAttempts (taken : List Nat) (i : Nat) : Nat → List Nat
  | 0 => []
  | n + 1 =>
    let c := saveWithRetry taken i
    saveAttempts taken i ++ runAttempts (c :: taken) (c + 1) n

/-- Model of `Twitterator.__save_comps__(tag1, tag2)`: nothing is written when the
pair already exists (the initial queryset filter); otherwise the save is
attempted with the current counter, and on an `IntegrityError` the handler
runs `self.competitors_i += 1; self.save_comps(tag1, tag2)` — but the
object has no attribute `save_comps` (the method is named
`__save_comps__`), so the retry raises `AttributeError` instead of
saving with the next id. -/
def saveComps (taken : List Nat) (i : Nat) (alreadyPaired : Bool) :
    Except PyErr (Option Nat) :=
  if alreadyPaired then .ok Option.none
  else if i ∈ taken then .error (.attrErr "save_comps")
  else .ok (some i)

/-- A `ParsedTweet` whose flattened metadata is exactly `f` (the shape a
construction from matching raw metadata produces; only `meta_key` matters
to the coordinate getter). -/
def ptWithMeta (f : Flat) : PT :=
  { text := "", munged_text := "", tokenized_text := [], metadata := Option.none,
    meta_key := some f, hashtags := [], uid := .none }

/-- The metadata value `[[12.3, 45.6]]`. -/
def coordsNested : MVal :=
  .arr (.cons (.arr (.cons (.num (123 / 10)) (.cons (.num (456 / 10)) .nil))) .nil)

/-- A `Twitterator` state that has retained the occurrence multiset
`comps` in `self.competitors` and emitted nothing yet. -/
def stateWithComps (comps : List String) : TwState :=
  { initState with competitors := comps }

/-- A `ParsedTweet` carrying a given tag list and no metadata-derived
fields, as ingested in the C2 scenario (text fields are irrelevant to the
record counts; coordinates and metadata are absent). -/
def ptWithTags (hs : List String) : PT :=
  { text := "t", munged_text := "t", tokenized_text := ["t"],
    metadata := Option.none, meta_key := Option.none, hashtags := hs, uid := .none }

/-- The C2 scenario: ingest three posts with tag lists `[x, y]`, `[y, z]`
and `[]` through `Twitterator.parse_tweet`, then run the pair-building
pass. -/
def c2Run : Except PyErr TwState := do
  let s1 ← parse_tweet initState (ptWithTags ["x", "y"])
  let s2 ← parse_tweet s1 (ptWithTags ["y", "z"])
  let s3 ← parse_tweet s2 (ptWithTags [])
  pure (serialize_competitors s3)

/-- The emission history of the C2 scenario. -/
def c2Trace : List FixSnapshot :=
  match c2Run with
  | .ok st => st.trace
  | .error _ => []

/-- The C4 counterexample input `{"a": [{"b": 1}]}`: a dict nested inside
a list value. -/
def c4Input : MDict :=
  .cons "a" (.arr (.cons (.dict (.cons "b" (.num 1) .nil)) .nil)) .nil

/-- Did a `parse_tweet` / pull step accept the raw post (return a
`ParsedTweet` rather than `None` or an exception)? -/
def isAccepted (r : Except PyErr (Option PT)) : Bool :=
  match r with
  | .ok (some _) => true
  | _ => false

/-- A raw post with a text field and no language field. -/
def rawNoLang : MDict :=
  .cons "text" (.str "hi") .nil

/-- A raw post with text, `lang = "en"`, and a user id (enough metadata for
`ParsedTweet` construction to succeed). -/
def rawWithLangEn : MDict :=
  .cons "text" (.str "hi")
    (.cons "lang" (.str "en")
      (.cons "user" (.dict (.cons "id" (.num 7) .nil)) .nil))


/-! Properties of the identifier-allocation retry loop. -/

theorem saveWithRetry_ge (taken : List Nat) (i : Nat) : i ≤ saveWithRetry taken i := by
  induction i using saveWithRetry.induct taken with
  | case1 i h ih =>
    unfold saveWithRetry
    rw [dif_pos h]
    omega
  | case2 i h =>
    unfold saveWithRetry
    rw [dif_neg h]

theorem saveWithRetry_mem_attempts (taken : List Nat) (i : Nat) :
    saveWithRetry taken i ∈ saveAttempts taken i := by
  induction i using saveWithRetry.induct taken with
  | case1 i h ih =>
    unfold saveWithRetry saveAttempts
    rw [dif_pos h, dif_pos h]
    exact List.mem_cons_of_mem i ih
  | case2 i h =>
    unfold saveWithRetry saveAttempts
    rw [dif_neg h, dif_neg h]
    exact List.mem_singleton.mpr rfl

theorem mem_runWrites_ge (taken : List Nat) (i : Nat) (n : Nat) :
    ∀ x ∈ runWrites taken i n, i ≤ x := by
  induction n generalizing taken i with
  | zero => simp [runWrites]
  | succ n ih =>
    intro x hx
    simp only [runWrites, List.mem_cons] at hx
    rcases hx with rfl | hx
    · exact saveWithRetry_ge taken i
    · have := ih (saveWithRetry taken i :: taken) (saveWithRetry taken i + 1) x hx
      have := saveWithRetry_ge taken i
      omega

theorem runWrites_pairwise (taken : List Nat) (i : Nat) (n : Nat) :
    (runWrites taken i n).Pairwise (· < ·) := by
  induction n generalizing taken i with
  | zero => simp [runWrites]
  | succ n ih =>
    simp only [runWrites, List.pairwise_cons]
    refine ⟨fun x hx => ?_, ih _ _⟩
    have := mem_runWrites_ge (saveWithRetry taken i :: taken) (saveWithRetry taken i + 1) n x hx
    omega

theorem runWrites_nodup (taken : List Nat) (i : Nat) (n : Nat) :
    (runWrites taken i n).Nodup :=
  (runWrites_pairwise taken i n).imp ne_of_lt

theorem runWrites_sublist_attempts (taken : List Nat) (i : Nat) (n : Nat) :
    (runWrites taken i n).Sublist (runAttempts taken i n) := by
  induction n generalizing taken i with
  | zero => simp [runWrites, runAttempts]
  | succ n ih =>
    simp only [runWrites, runAttempts]
    obtain ⟨s, t, hst⟩ := List.append_of_mem (saveWithRetry_mem_attempts taken i)
    rw [hst, List.append_assoc, List.cons_append]
    refine List.Sublist.trans ?_ (List.sublist_append_right s _)
    exact List.Sublist.cons₂ _
      (List.Sublist.trans (ih _ _) (List.sublist_append_right t _))

/-- C3: the spec's identifier-allocation property — every conflicted write is
retried with the next counter value, and committed ids are duplicate-free and
a strictly increasing subsequence of the attempted ids — holds for the
`Tweet`/`Hashtag` writers (`tweet_to_db`/`hashtag_to_db`, first three
conjuncts, shown here on a run of three writes against backend ids
`{1, 2, 5}`), but fails for the `Competitors` writer: `__save_comps__`'s
`IntegrityError` handler calls the non-existent method `self.save_comps`, so
a conflicted competitor write raises `AttributeError` instead of retrying. -/
theorem allocation_retry_c3 :
    runWrites [1, 2, 5] 1 3 = [3, 4, 6]
    ∧ runAttempts [1, 2, 5] 1 3 = [1, 2, 3, 4, 5, 6]
    ∧ (runWrites [1, 2, 5] 1 3).Sublist (runAttempts [1, 2, 5] 1 3)
    ∧ (runWrites [1, 2, 5] 1 3).Pairwise (· < ·)
    ∧ saveComps [1] 1 false = .error (.attrErr "save_comps") := by
  have h1 : runWrites [1, 2, 5] 1 3 = [3, 4, 6] := by
    simp [runWrites, saveWithRetry]
  have h2 : runAttempts [1, 2, 5] 1 3 = [1, 2, 3, 4, 5, 6] := by
    simp [runAttempts, saveAttempts, saveWithRetry]
  refine ⟨h1, h2, ?_, ?_, ?_⟩
  · exact runWrites_sublist_attempts [1, 2, 5] 1 3
  · exact runWrites_pairwise [1, 2, 5] 1 3
  · simp [saveComps]

/-- C5: coordinate extraction — a coordinates field `[[12.3, 45.6]]`
resolves to the pair `[12.3, 45.6]`; an empty-list field, a metadata
dict without the field, and empty metadata all resolve to no coordinates,
and none of these four inputs raises. -/
theorem get_coordinates_scenarios_c5 :
    (ptWithMeta [("coordinates", coordsNested)]).get_coordinates
      = .ok (some (.arr (.cons (.num (123 / 10)) (.cons (.num (456 / 10)) .nil))))
    ∧ (ptWithMeta [("coordinates", .arr .nil)]).get_coordinates = .ok Option.none
    ∧ (ptWithMeta [("other", .num 1)]).get_coordinates = .ok Option.none
    ∧ (ptWithMeta []).get_coordinates = .ok Option.none := by
  refine ⟨rfl, rfl, rfl, rfl⟩

/-- C6: constructing a `ParsedTweet` with non-empty text and absent
metadata (`None` or the empty dict) does *not* succeed with absent-path
values: `self.uid = self.get_meta('user')['id']` subscripts the `None`
returned by `get_meta` and raises `TypeError`. -/
theorem pInit_missing_metadata_raises_c6 (text : String) (h : text ≠ "") :
    pInit text Option.none Option.none = .error .typeErr
    ∧ pInit text (some .nil) Option.none = .error .typeErr := by
  constructor <;> simp [pInit, getMetaOf, MDict.isNonempty, h]

theorem pInit_missing_metadata_raises_c6_witness :
    ("hello" : String) ≠ "" ∧ pInit "hello" Option.none Option.none = .error .typeErr :=
  ⟨by decide, (pInit_missing_metadata_raises_c6 "hello" (by decide)).1⟩

/-! Properties of the pair-building pass (`serialize_competitors`). -/

theorem compPairs_append (a b : List FixSnapshot) :
    compPairs (a ++ b) = compPairs a ++ compPairs b := by
  simp [compPairs]

theorem compPairs_parse_competitors (st : TwState) (c1 c2 : String) :
    (parse_competitors st c1 c2).trace = st.trace
      ++ [FixSnapshot.co { pk := st.competitors_i, tag1 := c1, tag2 := c2,
                           votes := st.competitor_fixture.votes }] := by
  simp [parse_competitors]

theorem foldl_parse_competitors_trace (c1 : String) (l : List String) (st : TwState) :
    compPairs ((l.foldl (fun s c => if c1 ≠ c then parse_competitors s c1 c else s) st).trace)
      = compPairs st.trace
        ++ l.filterMap (fun c => if c1 ≠ c then some (c1, c) else Option.none) := by
  induction l generalizing st with
  | nil => simp
  | cons c t ih =>
    by_cases hc : c1 ≠ c
    · simp only [List.foldl_cons, if_pos hc, List.filterMap_cons, hc, ite_true]
      rw [ih, compPairs_parse_competitors, compPairs_append]
      simp [compPairs]
    · simp only [List.foldl_cons, if_neg hc, List.filterMap_cons, hc, ite_false]
      rw [ih]

theorem serCompsGo_pairs (rev : List String) (st : TwState) :
    compPairs ((serCompsGo rev st).trace) = compPairs st.trace ++ purePairs rev := by
  induction rev generalizing st with
  | nil => simp [serCompsGo, purePairs]
  | cons c1 revRest ih =>
    simp only [serCompsGo, purePairs]
    rw [ih, foldl_parse_competitors_trace]
    simp

theorem serialize_competitors_pairs (st : TwState) :
    compPairs ((serialize_competitors st).trace)
      = compPairs st.trace ++ purePairs st.competitors.reverse := by
  exact serCompsGo_pairs st.competitors.reverse st

theorem filterMap_ne_length (c1 : String) (l : List String) (h : c1 ∉ l) :
    (l.filterMap (fun c => if c1 ≠ c then some (c1, c) else Option.none)).length
      = l.length := by
  induction l with
  | nil => simp
  | cons a t ih =>
    have ha : c1 ≠ a := fun he => h (he ▸ List.mem_cons_self a t)
    have ht : c1 ∉ t := fun hm => h (List.mem_cons_of_mem a hm)
    simp [List.filterMap_cons, ha, ih ht]
    exact fun b hbt he => ht (by rw [he]; exact hbt)

theorem purePairs_length (l : List String) (h : l.Nodup) :
    2 * (purePairs l).length = l.length * (l.length - 1) := by
  induction l with
  | nil => simp [purePairs]
  | cons c1 t ih =>
    obtain ⟨hnm, hnd⟩ := List.nodup_cons.mp h
    have hnm' : c1 ∉ t.reverse := fun hm => hnm (List.mem_reverse.mp hm)
    have hlen := filterMap_ne_length c1 t.reverse hnm'
    have iht := ih hnd
    simp only [purePairs, List.length_append, hlen, List.length_reverse,
      List.length_cons]
    have hsub : t.length + 1 - 1 = t.length := by omega
    rw [hsub]
    cases t with
    | nil => simp [purePairs]
    | cons b u =>
      have hu : u.length + 1 - 1 = u.length := by omega
      simp only [List.length_cons, hu] at iht ⊢
      zify at iht ⊢
      linear_combination iht

theorem mem_purePairs (l : List String) (p : String × String) (hp : p ∈ purePairs l) :
    p.1 ∈ l ∧ p.2 ∈ l ∧ p.1 ≠ p.2 := by
  induction l with
  | nil => simp [purePairs] at hp
  | cons c1 t ih =>
    simp only [purePairs, List.mem_append] at hp
    rcases hp with hp | hp
    · obtain ⟨a, ha, hfa⟩ := List.mem_filterMap.mp hp
      by_cases hne : c1 ≠ a
      · simp only [if_pos hne, Option.some.injEq] at hfa
        subst hfa
        exact ⟨List.mem_cons_self c1 t,
               List.mem_cons_of_mem c1 (List.mem_reverse.mp ha), hne⟩
      · simp [if_neg hne] at hfa
    · obtain ⟨h1, h2, h3⟩ := ih hp
      exact ⟨List.mem_cons_of_mem c1 h1, List.mem_cons_of_mem c1 h2, h3⟩

theorem purePairs_no_self (l : List String) :
    ∀ p ∈ purePairs l, p.1 ≠ p.2 :=
  fun p hp => (mem_purePairs l p hp).2.2

theorem purePairs_pairwise (l : List String) (h : l.Nodup) :
    (purePairs l).Pairwise (fun p q => p ≠ q ∧ p ≠ (q.2, q.1)) := by
  induction l with
  | nil => simp [purePairs]
  | cons c1 t ih =>
    obtain ⟨hnm, hnd⟩ := List.nodup_cons.mp h
    simp only [purePairs]
    rw [List.pairwise_append]
    refine ⟨?_, ih hnd, ?_⟩
    · refine List.Pairwise.filterMap _ ?_ (List.nodup_reverse.mpr hnd)
      intro a b hab p hp q hq
      by_cases ha : c1 ≠ a
      · by_cases hb : c1 ≠ b
        · simp only [if_pos ha, Option.mem_def, Option.some.injEq] at hp
          simp only [if_pos hb, Option.mem_def, Option.some.injEq] at hq
          subst hp; subst hq
          constructor
          · intro he
            exact hab (congrArg Prod.snd he)
          · intro he
            exact ha (congrArg Prod.snd he).symm
        · simp [if_neg hb] at hq
      · simp [if_neg ha] at hp
    · intro p hp q hq
      obtain ⟨a, ha, hfa⟩ := List.mem_filterMap.mp hp
      by_cases hne : c1 ≠ a
      · simp only [if_pos hne, Option.some.injEq] at hfa
        subst hfa
        obtain ⟨hq1, hq2, _⟩ := mem_purePairs t q hq
        constructor
        · intro he
          have h1 : c1 = q.1 := congrArg Prod.fst he
          exact hnm (by rw [h1]; exact hq1)
        · intro he
          have h1 : c1 = q.2 := congrArg Prod.fst he
          exact hnm (by rw [h1]; exact hq2)
      · simp [if_neg hne] at hfa

/-- C1: running `serialize_competitors` over a retained occurrence multiset
with pairwise-distinct texts emits exactly `N*(N-1)/2` `TagPair` records,
no two of which coincide as unordered pairs, and none of which pairs two
equal texts. -/
theorem serialize_competitors_distinct_c1 (comps : List String) (h : comps.Nodup) :
    (compPairs ((serialize_competitors (stateWithComps comps)).trace)).length
        = comps.length * (comps.length - 1) / 2
    ∧ (compPairs ((serialize_competitors (stateWithComps comps)).trace)).Pairwise
        (fun p q => p ≠ q ∧ p ≠ (q.2, q.1))
    ∧ ∀ p ∈ compPairs ((serialize_competitors (stateWithComps comps)).trace),
        p.1 ≠ p.2 := by
  have htr : compPairs ((serialize_competitors (stateWithComps comps)).trace)
      = purePairs comps.reverse := by
    rw [serialize_competitors_pairs]
    simp [stateWithComps, initState, compPairs]
  have hrevnd : comps.reverse.Nodup := List.nodup_reverse.mpr h
  refine ⟨?_, ?_, ?_⟩
  · rw [htr]
    have h2 := purePairs_length comps.reverse hrevnd
    rw [List.length_reverse] at h2
    generalize comps.length * (comps.length - 1) = m at h2 ⊢
    omega
  · rw [htr]
    exact purePairs_pairwise comps.reverse hrevnd
  · rw [htr]
    exact purePairs_no_self comps.reverse

theorem serialize_competitors_distinct_c1_witness :
    (["a", "b", "c"] : List String).Nodup
    ∧ ((compPairs ((serialize_competitors (stateWithComps ["a", "b", "c"])).trace)).length
          = (["a", "b", "c"] : List String).length * ((["a", "b", "c"] : List String).length - 1) / 2
      ∧ (compPairs ((serialize_competitors (stateWithComps ["a", "b", "c"])).trace)).Pairwise
          (fun p q => p ≠ q ∧ p ≠ (q.2, q.1))
      ∧ ∀ p ∈ compPairs ((serialize_competitors (stateWithComps ["a", "b", "c"])).trace),
          p.1 ≠ p.2) :=
  ⟨by decide, serialize_competitors_distinct_c1 ["a", "b", "c"] (by decide)⟩

/-- C2 counterexample: the scenario does *not* emit exactly 4 `TagPair`
records — each of the two `y` occurrences pairs with `x`, so `(y, x)` is
emitted twice and the total is 5. -/
theorem c2_pair_count_not_four : (compPairs c2Trace).length ≠ 4 := by
  decide

/-- C2 (amended): the scenario emits exactly 3 `Post` records, exactly 4
`Tag` records with texts `x, y, y, z` (in order), and exactly 5 `TagPair`
records: `(z, x), (z, y), (z, y), (y, x), (y, x)`. -/
theorem c2_scenario_records :
    tweetCount c2Trace = 3
    ∧ hashTextsOf c2Trace = ["x", "y", "y", "z"]
    ∧ compPairs c2Trace = [("z", "x"), ("z", "y"), ("z", "y"), ("y", "x"), ("y", "x")] := by
  refine ⟨by decide, by decide, by decide⟩

/-! Key-set properties of the metadata flattener. -/

theorem mem_flatKeys_setKey (d : Flat) (k : String) (v : MVal) (k' : String) :
    k' ∈ flatKeys (setKey d k v) ↔ k' = k ∨ k' ∈ flatKeys d := by
  induction d with
  | nil => simp [setKey, flatKeys]
  | cons a rest ih =>
    by_cases ha : a.1 = k
    · simp only [setKey, ha, ite_true, flatKeys, List.map_cons, List.mem_cons]
      simp only [flatKeys] at ih ⊢
      tauto
    · simp only [setKey, ha, ite_false, flatKeys, List.map_cons, List.mem_cons]
      simp only [flatKeys] at ih ⊢
      tauto

theorem mem_flatKeys_dUpdate (d d2 : Flat) (k : String) :
    k ∈ flatKeys (dUpdate d d2) ↔ k ∈ flatKeys d ∨ k ∈ flatKeys d2 := by
  induction d2 generalizing d with
  | nil => simp [dUpdate, flatKeys]
  | cons a t ih =>
    have : dUpdate d (a :: t) = dUpdate (setKey d a.1 a.2) t := by
      simp [dUpdate]
    rw [this, ih, mem_flatKeys_setKey]
    simp [flatKeys]
    tauto

theorem mem_flatKeys_flattenGo (m : MDict) (acc : Flat) (k : String) :
    k ∈ flatKeys (flattenGo m acc) ↔ k ∈ flatKeys acc ∨ k ∈ keysViaDictsD m := by
  match m with
  | .nil => simp [flattenGo, keysViaDictsD]
  | .cons a v rest =>
    cases v with
    | dict sub =>
      have hrest := mem_flatKeys_flattenGo rest
        (dUpdate (setKey acc a (.dict sub)) (flattenGo sub [])) k
      have hsub := mem_flatKeys_flattenGo sub [] k
      simp only [flattenGo] at hrest ⊢
      rw [hrest, mem_flatKeys_dUpdate, mem_flatKeys_setKey]
      rw [hsub]
      simp [keysViaDictsD, keysViaDictsV, flatKeys]
      tauto
    | str s =>
      have hrest := mem_flatKeys_flattenGo rest (setKey acc a (.str s)) k
      simp only [flattenGo] at hrest ⊢
      rw [hrest, mem_flatKeys_setKey]
      simp [keysViaDictsD, keysViaDictsV]
      tauto
    | num q =>
      have hrest := mem_flatKeys_flattenGo rest (setKey acc a (.num q)) k
      simp only [flattenGo] at hrest ⊢
      rw [hrest, mem_flatKeys_setKey]
      simp [keysViaDictsD, keysViaDictsV]
      tauto
    | none =>
      have hrest := mem_flatKeys_flattenGo rest (setKey acc a .none) k
      simp only [flattenGo] at hrest ⊢
      rw [hrest, mem_flatKeys_setKey]
      simp [keysViaDictsD, keysViaDictsV]
      tauto
    | arr l =>
      have hrest := mem_flatKeys_flattenGo rest (setKey acc a (.arr l)) k
      simp only [flattenGo] at hrest ⊢
      rw [hrest, mem_flatKeys_setKey]
      simp [keysViaDictsD, keysViaDictsV]
      tauto
  termination_by sizeOf m

theorem keysViaDictsD_subset (m : MDict) :
    ∀ k, k ∈ keysViaDictsD m → k ∈ keysAtAnyDepthD m := by
  match m with
  | .nil => simp [keysViaDictsD]
  | .cons a v rest =>
    intro k hk
    simp only [keysViaDictsD, List.mem_cons, List.mem_append] at hk
    simp only [keysAtAnyDepthD, List.mem_cons, List.mem_append]
    rcases hk with rfl | hv | hr
    · exact Or.inl rfl
    · refine Or.inr (Or.inl ?_)
      cases v with
      | dict sub =>
        have := keysViaDictsD_subset sub k
        simp only [keysViaDictsV] at hv
        simp only [keysAtAnyDepthV]
        exact this hv
      | str s => simp [keysViaDictsV] at hv
      | num q => simp [keysViaDictsV] at hv
      | none => simp [keysViaDictsV] at hv
      | arr l => simp [keysViaDictsV] at hv
    · exact Or.inr (Or.inr (keysViaDictsD_subset rest k hr))
  termination_by sizeOf m

/-- C4 counterexample: the flattening is *not* complete for every key
appearing at any depth of the input — for `{"a": [{"b": 1}]}` the key
`"b"` appears at depth 2 (inside a list element) but is missing from the
flattened key set, because the code only recurses into values that are
dicts. -/
theorem flatten_incomplete_c4 :
    "b" ∈ keysAtAnyDepthD c4Input ∧ "b" ∉ flatKeys (flattenDict c4Input) := by
  refine ⟨by decide, by decide⟩

/-- C4 (amended): the flattened key set equals the set of keys reachable
through nested *dicts* (dicts inside lists are opaque leaves) — complete
and sound for that key set — and is still sound for the full
keys-at-any-depth set of the input. -/
theorem flatten_keys_c4 (m : MDict) (k : String) :
    (k ∈ flatKeys (flattenDict m) ↔ k ∈ keysViaDictsD m)
    ∧ (k ∈ flatKeys (flattenDict m) → k ∈ keysAtAnyDepthD m) := by
  have h := mem_flatKeys_flattenGo m [] k
  simp only [flatKeys, List.map_nil, List.not_mem_nil, false_or] at h
  constructor
  · rw [flattenDict]
    exact h
  · intro hk
    rw [flattenDict] at hk
    exact keysViaDictsD_subset m k (h.mp hk)

theorem flatten_keys_c4_witness :
    ("b" ∈ flatKeys (flattenDict (.cons "b" (.num 1) .nil))
      ↔ "b" ∈ keysViaDictsD (.cons "b" (.num 1) .nil))
    ∧ "b" ∈ keysAtAnyDepthD (.cons "b" (.num 1) .nil) :=
  ⟨(flatten_keys_c4 (.cons "b" (.num 1) .nil) "b").1,
   (flatten_keys_c4 (.cons "b" (.num 1) .nil) "b").2 (by decide)⟩

/-- C7: the stream filter of `Twitterizer.parse_tweet` — a raw post with no
language field is rejected when `lang_none` is false, and a raw post
carrying a language field is accepted only if that field's value equals
the requested language code. -/
theorem parse_tweet_language_c7 (raw : MDict) (ho meta : Bool) (lang : String)
    (tok : Option (String → List String)) :
    (raw.hasKey "lang" = false →
      parseTweetTz raw ho meta lang false tok = .ok Option.none)
    ∧ ∀ (ln : Bool) (v : MVal), raw.lookup "lang" = some v →
        isAccepted (parseTweetTz raw ho meta lang ln tok) = true →
        v = .str lang := by
  constructor
  · intro h1
    by_cases ht : raw.hasKey "text" <;>
      simp [parseTweetTz, h1, ht] <;> rfl
  · intro ln v hlv hacc
    by_cases heq : pyEqStr v lang = true
    · cases v with
      | str t =>
        simp only [pyEqStr, decide_eq_true_eq] at heq
        rw [heq]
      | num q => simp [pyEqStr] at heq
      | none => simp [pyEqStr] at heq
      | arr a => simp [pyEqStr] at heq
      | dict d => simp [pyEqStr] at heq
    · exfalso
      by_cases ht : raw.hasKey "text"
      · by_cases hln : ln ≠ raw.hasKey "lang"
        · have hgi : getItem raw "lang" = .ok v := by simp [getItem, hlv]
          simp [parseTweetTz, ht, hln, hgi, heq, isAccepted,
            Bind.bind, Except.bind, pure, Except.pure] at hacc
        · simp [parseTweetTz, ht, hln, isAccepted,
            Bind.bind, Except.bind, pure, Except.pure] at hacc
      · simp [parseTweetTz, ht, isAccepted,
          Bind.bind, Except.bind, pure, Except.pure] at hacc

theorem parse_tweet_language_c7_witness :
    parseTweetTz rawNoLang true true "en" false Option.none = .ok Option.none
    ∧ MVal.str "en" = .str "en" := by
  constructor
  · exact (parse_tweet_language_c7 rawNoLang true true "en" Option.none).1 rfl
  · refine (parse_tweet_language_c7 rawWithLangEn false true "en" Option.none).2
      false (.str "en") rfl ?_
    simp [parseTweetTz, rawWithLangEn, isAccepted, mkParsed, mdOf, pInit, pyEqStr,
      getItem, getItemV, MDict.hasKey, MDict.lookup, MDict.removeKey, MDict.isNonempty,
      getMetaOf, flattenDict, flattenGo, setKey, dUpdate, flatLookup, tryKeyErr,
      extractHashtags, findTags, isWordChar, htTexts,
      Bind.bind, Except.bind, pure, Except.pure, Functor.map, Except.map]

theorem lenOk_getTweetsGo_le (ho meta : Bool) (lang : String) (ln : Bool)
    (tok : Option (String → List String)) (feed : List MDict) :
    ∀ i limit : Nat, lenOk (getTweetsGo ho meta lang ln tok feed i limit) ≤ limit - i := by
  induction feed with
  | nil =>
    intro i limit
    simp only [getTweetsGo]
    split <;> simp [lenOk]
  | cons t ts ih =>
    intro i limit
    rw [getTweetsGo]
    by_cases hil : i < limit
    · rw [if_pos hil]
      cases hstep : getTweetsStep t ho meta lang ln tok with
      | error e => simp [hstep, lenOk, Bind.bind, Except.bind]
      | ok o =>
        cases o with
        | none =>
          simp only [hstep, Bind.bind, Except.bind]
          have := ih i limit
          simpa using this
        | some pt =>
          cases hrest : getTweetsGo ho meta lang ln tok ts (i + 1) limit with
          | error e => simp [hstep, hrest, lenOk, Bind.bind, Except.bind,
              Functor.map, Except.map]
          | ok l =>
            have := ih (i + 1) limit
            rw [hrest] at this
            simp only [lenOk] at this
            simp [hstep, hrest, lenOk, Bind.bind, Except.bind,
              Functor.map, Except.map, pure, Except.pure]
            omega
    · rw [if_neg hil]
      simp [lenOk]

/-- C8: the stream session's bound.  The batch call `get_tweets` produces at
most `limit` accepted posts for every feed and parameter choice, rejected
items never count, and feed exhaustion yields the posts accepted so far
without an error.  The lazy `tweet_iterator`, however, runs `while i <=
limit` and therefore produces `limit + 1` accepted posts: over a feed of
two acceptable posts with `limit = 1` it yields 2 posts. -/
theorem stream_limit_c8 :
    (∀ (feed : List MDict) (ho : Bool) (limit : Nat) (lang : String)
        (ln meta : Bool) (tok : Option (String → List String)),
        lenOk (getTweets feed ho limit lang ln meta tok) ≤ limit)
    ∧ (∀ (ho meta : Bool) (lang : String) (ln : Bool)
        (tok : Option (String → List String)) (i limit : Nat),
        getTweetsGo ho meta lang ln tok [] i limit = .ok [])
    ∧ lenOk (tweetIterator [rawWithLangEn, rawWithLangEn] 1 false true "en" false
        Option.none) = 2 := by
  refine ⟨?_, ?_, ?_⟩
  · intro feed ho limit lang ln meta tok
    have := lenOk_getTweetsGo_le ho meta lang ln tok feed 0 limit
    simpa [getTweets] using this
  · intro ho meta lang ln tok i limit
    simp only [getTweetsGo]
    split <;> rfl
  · simp [tweetIterator, tweetIteratorGo, parseTweetTz, rawWithLangEn, isAccepted,
      mkParsed, mdOf, pInit, pyEqStr, getItem, getItemV, MDict.hasKey, MDict.lookup,
      MDict.removeKey, MDict.isNonempty, getMetaOf, flattenDict, flattenGo, setKey,
      dUpdate, flatLookup, tryKeyErr, extractHashtags, findTags, isWordChar, htTexts,
      lenOk, Bind.bind, Except.bind, pure, Except.pure, Functor.map, Except.map]

/-! The fixture-dict aliasing of the `Twitterator`. -/

theorem foldl_parse_hash_text (tags : List String) (st : TwState) (h : tags ≠ []) :
    (tags.foldl parse_hash st).hash_fixture.text = tags.getLast h := by
  induction tags generalizing st with
  | nil => exact absurd rfl h
  | cons t ts ih =>
    cases ts with
    | nil => simp [parse_hash]
    | cons u v =>
      rw [List.foldl_cons, List.getLast_cons (by simp)]
      exact ih (parse_hash st t) (by simp)

theorem foldl_parse_hash_fixtures (tags : List String) (st : TwState) :
    (tags.foldl parse_hash st).fixtures
      = st.fixtures ++ tags.map (fun _ => FixRef.hashRef) := by
  induction tags generalizing st with
  | nil => simp
  | cons t ts ih =>
    rw [List.foldl_cons, ih]
    simp [parse_hash]

theorem foldl_parse_hash_traceTexts (tags : List String) (st : TwState) :
    hashTextsOf ((tags.foldl parse_hash st).trace) = hashTextsOf st.trace ++ tags := by
  induction tags generalizing st with
  | nil => simp
  | cons t ts ih =>
    rw [List.foldl_cons, ih]
    simp [parse_hash, hashTextsOf]

/-- C10: each `parse_hash` call mutates the one shared hash-fixture dict
created in `__init__` and appends *that same object* to `self.fixtures`:
after ingesting a non-empty tag list, every appended hash entry of
`fixtures` dereferences to the current shared cell, which holds the most
recent record's field values (the last tag's text) — while the emission
history shows each entry's value at append time, so earlier emitted
records do not stay unchanged. -/
theorem fixture_aliasing_c10 (st : TwState) (tags : List String) (h : tags ≠ []) :
    (∀ r ∈ (tags.foldl parse_hash st).fixtures, r = FixRef.hashRef →
        derefFix (tags.foldl parse_hash st) r
          = FixSnapshot.ha (tags.foldl parse_hash st).hash_fixture)
    ∧ (tags.foldl parse_hash st).hash_fixture.text = tags.getLast h
    ∧ (tags.foldl parse_hash st).fixtures
        = st.fixtures ++ tags.map (fun _ => FixRef.hashRef)
    ∧ hashTextsOf ((tags.foldl parse_hash st).trace) = hashTextsOf st.trace ++ tags := by
  refine ⟨?_, foldl_parse_hash_text tags st h, foldl_parse_hash_fixtures tags st,
    foldl_parse_hash_traceTexts tags st⟩
  intro r _ hre
  subst hre
  rfl

theorem fixture_aliasing_c10_witness :
    (["a", "b"] : List String) ≠ []
    ∧ (["a", "b"].foldl parse_hash initState).hash_fixture.text = "b"
    ∧ hashTextsOf ((["a", "b"].foldl parse_hash initState).trace) = ["a", "b"] := by
  have h := fixture_aliasing_c10 initState ["a", "b"] (by decide)
  refine ⟨by decide, ?_, ?_⟩
  · have := h.2.1
    simpa using this
  · have := h.2.2.2
    simpa [initState, hashTextsOf] using this

/-! Idempotence of the user-mention redaction. -/

theorem data_asString (l : List Char) : (List.asString l).data = l :=
  rfl

theorem munge_cons_eta (d : Char) (ds : List Char) :
    ∃ t, munge (d :: ds) = d :: t := by
  by_cases hc : d = '@' ∧ ds ≠ [] ∧ isWordChar (ds.headD ' ')
  · refine ⟨List.replicate 8 'x' ++ munge (ds.dropWhile isWordChar), ?_⟩
    rw [show munge (d :: ds)
        = sentinel ++ munge (ds.dropWhile isWordChar) from by
      rw [munge]; rw [if_pos hc]]
    rw [sentinel, hc.1]
    rfl
  · exact ⟨munge ds, by rw [munge]; rw [if_neg hc]⟩

theorem dropWhile_head_not (p : Char → Bool) (l : List Char) (d : Char)
    (t : List Char) (h : l.dropWhile p = d :: t) : p d = false := by
  induction l with
  | nil => simp [List.dropWhile] at h
  | cons a u ih =>
    by_cases pa : p a = true
    · rw [List.dropWhile_cons_of_pos pa] at h
      exact ih h
    · rw [List.dropWhile_cons_of_neg pa] at h
      cases h
      exact Bool.not_eq_true _ ▸ (by simpa using pa)

theorem dropWhile_append_all (p : Char → Bool) (a b : List Char)
    (h : ∀ x ∈ a, p x = true) : (a ++ b).dropWhile p = b.dropWhile p := by
  induction a with
  | nil => simp
  | cons x xs ih =>
    rw [List.cons_append, List.dropWhile_cons_of_pos (h x (List.mem_cons_self x xs))]
    exact ih (fun y hy => h y (List.mem_cons_of_mem x hy))

theorem munge_idem (l : List Char) : munge (munge l) = munge l := by
  match l with
  | [] => simp [munge]
  | c :: cs =>
    by_cases hc : c = '@' ∧ cs ≠ [] ∧ isWordChar (cs.headD ' ')
    · rw [show munge (c :: cs)
          = sentinel ++ munge (cs.dropWhile isWordChar) from by
        rw [munge]; rw [if_pos hc]]
      have hx : ∀ x ∈ List.replicate 8 'x', isWordChar x = true := by
        intro x hx
        rw [List.eq_of_mem_replicate hx]
        decide
      have hsent : sentinel ++ munge (cs.dropWhile isWordChar)
          = '@' :: (List.replicate 8 'x' ++ munge (cs.dropWhile isWordChar)) := rfl
      rw [hsent]
      have hcond2 : ('@' : Char) = '@'
          ∧ (List.replicate 8 'x' ++ munge (cs.dropWhile isWordChar)) ≠ []
          ∧ isWordChar ((List.replicate 8 'x'
              ++ munge (cs.dropWhile isWordChar)).headD ' ') = true := by
        refine ⟨rfl, by simp, ?_⟩
        rw [show (List.replicate 8 'x' : List Char) = 'x' :: List.replicate 7 'x' from rfl,
          List.cons_append]
        simp only [List.headD_cons]
        decide
      rw [show munge ('@' :: (List.replicate 8 'x' ++ munge (cs.dropWhile isWordChar)))
          = sentinel ++ munge ((List.replicate 8 'x'
              ++ munge (cs.dropWhile isWordChar)).dropWhile isWordChar) from by
        rw [munge]
        rw [if_pos hcond2]]
      rw [dropWhile_append_all isWordChar _ _ hx]
      have hdw : (munge (cs.dropWhile isWordChar)).dropWhile isWordChar
          = munge (cs.dropWhile isWordChar) := by
        cases hrr : cs.dropWhile isWordChar with
        | nil => rw [munge]; rfl
        | cons d t =>
          have hd : isWordChar d = false := dropWhile_head_not isWordChar cs d t hrr
          obtain ⟨t2, ht2⟩ := munge_cons_eta d t
          rw [ht2]
          exact List.dropWhile_cons_of_neg (by simp [hd])
      rw [hdw, munge_idem (cs.dropWhile isWordChar)]
      exact hsent
    · rw [show munge (c :: cs) = c :: munge cs from by rw [munge]; rw [if_neg hc]]
      by_cases hc2 : c = '@' ∧ munge cs ≠ [] ∧ isWordChar ((munge cs).headD ' ')
      · exfalso
        obtain ⟨h1, h2, h3⟩ := hc2
        cases cs with
        | nil => rw [munge] at h2; exact h2 rfl
        | cons d t =>
          obtain ⟨t2, ht2⟩ := munge_cons_eta d t
          rw [ht2] at h3
          apply hc
          exact ⟨h1, by simp, by simpa using h3⟩
      · rw [show munge (c :: munge cs) = c :: munge (munge cs) from by
          rw [munge]; rw [if_neg hc2]]
        rw [munge_idem cs]
  termination_by l.length
  decreasing_by
    all_goals
      have h9 := (List.dropWhile_sublist (l := cs) isWordChar).length_le
      simp only [List.length_cons]
      omega

/-- C9: the user-mention redaction is idempotent — redacting an
already-redacted text returns it unchanged. -/
theorem munge_idempotent_c9 (s : String) : mungeStr (mungeStr s) = mungeStr s := by
  simp only [mungeStr, data_asString, munge_idem]

end HashOut
